import Mathlib

/-!
Verification of the markdown plan/phase parsing core of the `claude-kit`
VS Code extension.  Strings are embedded as lists of characters
(`Str := List Char`); the JavaScript string operations used by the source
(`toLowerCase`, `trim`, `includes`, `split`, regular-expression scans) are
translated into executable Lean functions over `Str`.  JavaScript numbers
appearing in the parsers are non-negative integers (phase numbers, counts)
or calendar arithmetic, and are embedded as `Nat`/`Int` with exact
arithmetic.
-/

namespace PlanKit

/-- JS strings, embedded as their character sequences. -/
abbrev Str := List Char

/-- Coerce a Lean string literal to the embedding. -/
def str (s : String) : Str := s.data

/-- Character set of JS whitespace (`\s`, `String.prototype.trim`):
space, tab, line feed, carriage return, vertical tab, form feed,
no-break space, BOM.  (Exotic Unicode space separators are omitted;
no input in this development contains them.) -/
def isWS (c : Char) : Bool :=
  c = ' ' || c = '\t' || c = '\n' || c = '\r' || c = '\x0b' ||
  c = '\x0c' || c = ' ' || c = '﻿'

/-- The `String.prototype.toLowerCase` (ASCII range, which covers every
keyword the source compares against). -/
def jsToLower (s : Str) : Str := s.map Char.toLower

/-- The `String.prototype.toUpperCase` (ASCII range). -/
def jsToUpper (s : Str) : Str := s.map Char.toUpper

/-- The `String.prototype.trim`. -/
def jsTrim (s : Str) : Str :=
  ((s.dropWhile isWS).reverse.dropWhile isWS).reverse

/-- The `haystack.includes(needle)` : substring containment. -/
def jsIncludes (s pat : Str) : Bool :=
  match s with
  | [] => pat.isEmpty
  | _ :: t => pat.isPrefixOf s || jsIncludes t pat

/-- The `String.prototype.split(sep)` for a one-character separator. -/
def splitCh (sep : Char) : Str → List Str
  | [] => [[]]
  | c :: t =>
    if c = sep then [] :: splitCh sep t
    else match splitCh sep t with
      | [] => [[c]]
      | h :: r => (c :: h) :: r

/-- The `content.split('\n')`. -/
def splitLines (s : Str) : List Str := splitCh '\n' s

/-- The `Array.prototype.join(sep)` for a one-character separator. -/
def joinCh (sep : Char) : List Str → Str
  | [] => []
  | [l] => l
  | l :: r => l ++ sep :: joinCh sep r

/-- ASCII decimal digit test (`\d`). -/
def isDigitC (c : Char) : Bool := '0' ≤ c && c ≤ '9'

/-- The `parseInt(s, 10)` on a string of decimal digits. -/
def parseDigits (s : Str) : Nat :=
  s.foldl (fun a c => a * 10 + (c.toNat - '0'.toNat)) 0

/-- Decimal rendering of a natural number (template literals such as
`` `Phase ${n}` `` applied to a number). -/
def natToStr (n : Nat) : Str :=
  (Nat.toDigits 10 n)

-- Phase status enumeration (`PhaseStatus` in `types.ts`).
inductive PhaseStatus where
  | pending
  | inProgress
  | completed
deriving DecidableEq, Repr

-- Plan status enumeration (`PlanStatus` in `types.ts`).
inductive PlanStatus where
  | pending
  | inProgress
  | completed
  | cancelled
deriving DecidableEq, Repr

/-- The `normalizeStatus` from `statusUtils.ts`: `(raw || '')` treats a
null/undefined argument as the empty string; then lowercase + trim,
then test substring containment against the completed markers, then
the in-progress markers, defaulting to pending. -/
def normalizeStatus (raw : Option Str) : PhaseStatus :=
  let s := jsTrim (jsToLower (raw.getD []))
  if jsIncludes s (str "complete") || jsIncludes s (str "done") ||
     jsIncludes s (str "✓") || jsIncludes s (str "✅") then
    .completed
  else if jsIncludes s (str "progress") || jsIncludes s (str "active") ||
     jsIncludes s (str "wip") || jsIncludes s (str "🔄") then
    .inProgress
  else
    .pending

/-- The `calculatePlanStatus` from `statusUtils.ts`. -/
def calculatePlanStatus (phases : List PhaseStatus) : PlanStatus :=
  if phases.length = 0 then .pending
  else
    let allCompleted := phases.all (fun p => p = .completed)
    if allCompleted then .completed
    else
      let hasInProgress := phases.any (fun p => p = .inProgress)
      let hasCompleted := phases.any (fun p => p = .completed)
      if hasInProgress || hasCompleted then .inProgress
      else .pending

/-- The `^P[0-3]$` pattern test of `normalizePriority`
(`metadataExtractor.ts`); the character range `[0-3]` is spelt out. -/
def pPattern (p : Str) : Bool :=
  match p with
  | [a, c] => a = 'P' && (c = '0' || c = '1' || c = '2' || c = '3')
  | _ => false

/-- The `normalizePriority` from `metadataExtractor.ts`.  The TS declared
return type is `'P1' | 'P2' | 'P3' | null`, but the `^P[0-3]$` branch
casts the (uppercased, trimmed) token through unchecked, so the
embedding returns the raw token string (`Option Str`, `none` = null). -/
def normalizePriority (priority : Option Str) : Option Str :=
  match priority with
  | none => none
  | some s =>
    if s.isEmpty then none
    else
      let p := jsTrim (jsToUpper s)
      if p = str "P1" ∨ p = str "HIGH" ∨ p = str "CRITICAL" then some (str "P1")
      else if p = str "P2" ∨ p = str "MEDIUM" ∨ p = str "NORMAL" then some (str "P2")
      else if p = str "P3" ∨ p = str "LOW" then some (str "P3")
      else if pPattern p then some p
      else none

/-- Days since the Unix epoch of a civil date (month `1..12`; the day
may exceed the month length, giving day-level rollover).  Standard
civil-calendar arithmetic, as performed by ECMAScript `MakeDay`. -/
def daysFromCivil (y m d : Int) : Int :=
  let y' := y - (if m ≤ 2 then 1 else 0)
  let era := Int.fdiv y' 400
  let yoe := y' - era * 400
  let mp := Int.emod (m + 9) 12
  let doy := Int.fdiv (153 * mp + 2) 5 + d - 1
  let doe := yoe * 365 + Int.fdiv yoe 4 - Int.fdiv yoe 100 + doy
  era * 146097 + doe - 719468

/-- Civil date `(year, month 1..12, day)` of a day count since the
Unix epoch; inverse of `daysFromCivil`. -/
def civilFromDays (z : Int) : Int × Int × Int :=
  let z' := z + 719468
  let era := Int.fdiv z' 146097
  let doe := z' - era * 146097
  let yoe := Int.fdiv (doe - Int.fdiv doe 1460 + Int.fdiv doe 36524 -
    Int.fdiv doe 146096) 365
  let y := yoe + era * 400
  let doy := doe - (365 * yoe + Int.fdiv yoe 4 - Int.fdiv yoe 100)
  let mp := Int.fdiv (5 * doy + 2) 153
  let d := doy - Int.fdiv (153 * mp + 2) 5 + 1
  let m := mp + (if mp < 10 then 3 else -9)
  (y + (if m ≤ 2 then 1 else 0), m, d)

/-- The `new Date(year, month, day)` (ECMAScript): years `0..99` are
shifted to `1900..1999`; the 0-based month rolls into the year; the
day rolls into the month (`MakeDay`); the result is the invalid date
(`none`) exactly when the time value exceeds the ±8.64e15 ms range
(±100000000 days), and otherwise the civil triple
`(getFullYear, getMonth (0-based), getDate)`. -/
def jsMakeDate (year month day : Int) : Option (Int × Int × Int) :=
  let y0 := if 0 ≤ year ∧ year ≤ 99 then year + 1900 else year
  let ym := y0 + Int.fdiv month 12
  let mn := Int.emod month 12
  let days := daysFromCivil ym (mn + 1) 1 + (day - 1)
  if days < -100000000 ∨ 100000000 < days then none
  else
    let c := civilFromDays days
    some (c.1, c.2.1 - 1, c.2.2)

/-- The regex match `^(\d{6,8})(?:-(\d{4}))?-` of `parseDateFromDirName`:
the greedy `\d{6,8}` tries 8, then 7, then 6 leading digits, and the
remainder must start with `-` (the optional `-\d{4}` group only binds
the discarded time capture, so a leading `-` always completes the
match).  Returns the digit prefix capture. -/
def dateMatch (s : Str) : Option Str :=
  let tryK := fun (k : Nat) =>
    let pre := s.take k
    if pre.length = k && pre.all isDigitC &&
        ((s.drop k).head? == some '-') then some pre else none
  ((tryK 8).orElse fun _ => (tryK 7).orElse fun _ => tryK 6)

/-- The `parseDateFromDirName` from `metadataExtractor.ts`.  A 6-digit
prefix is YYMMDD with year `2000+YY`; otherwise the prefix is sliced
as YYYYMMDD.  The result is `new Date(year, month-1, day)`, `undefined`
when `getTime()` is NaN. -/
def parseDateFromDirName (dirName : Str) : Option (Int × Int × Int) :=
  match dateMatch dirName with
  | none => none
  | some ds =>
    if ds.length = 6 then
      jsMakeDate (2000 + (parseDigits (ds.take 2) : Int))
        ((parseDigits ((ds.drop 2).take 2) : Int) - 1)
        (parseDigits ((ds.drop 4).take 2) : Int)
    else
      jsMakeDate (parseDigits (ds.take 4) : Int)
        ((parseDigits ((ds.drop 4).take 2) : Int) - 1)
        (parseDigits ((ds.drop 6).take 2) : Int)

-- ## The plan parser (`planParser.ts`)

/-- The `PhaseData` from `types.ts`. -/
structure PhaseData where
  phase : Nat
  name : Str
  status : PhaseStatus
  file : Str
  linkText : Str
  effort : Option Str := none
deriving DecidableEq, Repr

/-- The `STATUS_KEYWORDS` from `planParser.ts`. -/
def STATUS_KEYWORDS : List Str :=
  [str "pending", str "in-progress", str "in progress", str "completed",
   str "complete", str "done", str "cancelled", str "canceled",
   str "todo", str "wip", str "planned", str "not started",
   str "not-started",
   str "✅", str "⏳", str "🔄", str "❌", str "○", str "⟳", str "✓"]

/-- The `isValidStatus` from `planParser.ts`: lowercase + trim, then test
whether any status keyword occurs as a substring. -/
def isValidStatus (text : Str) : Bool :=
  let lower := jsTrim (jsToLower text)
  STATUS_KEYWORDS.any (fun kw => jsIncludes lower kw)

/-- First match of the markdown-link regex `\[([^\]]+)\]\(([^)]+)\)`:
returns the link text and target of the leftmost link, if any.  (The
bracketed runs are the maximal bracket-free runs, as the regex's
negated character classes dictate.) -/
def execLink : Str → Option (Str × Str)
  | [] => none
  | '[' :: t =>
    let txt := t.takeWhile (fun c => c ≠ ']')
    (match t.dropWhile (fun c => c ≠ ']') with
     | ']' :: '(' :: u =>
       let tgt := u.takeWhile (fun c => c ≠ ')')
       (match u.dropWhile (fun c => c ≠ ')') with
        | ')' :: _ =>
          if txt.isEmpty || tgt.isEmpty then execLink t else some (txt, tgt)
        | _ => execLink t)
     | _ => execLink t)
  | _ :: t => execLink t

/-- The `name.replace(/\*\*/g, '')`: delete every `**`. -/
def removeBold : Str → Str
  | '*' :: '*' :: t => removeBold t
  | c :: t => c :: removeBold t
  | [] => []

/-- One step of the global link replacement: if a link match starts at
the head, return its text and the remainder after the match. -/
def linkSplit (t : Str) : Option (Str × Str) :=
  let txt := t.takeWhile (fun c => c ≠ ']')
  match t.dropWhile (fun c => c ≠ ']') with
  | ']' :: '(' :: u =>
    let tgt := u.takeWhile (fun c => c ≠ ')')
    (match u.dropWhile (fun c => c ≠ ')') with
     | ')' :: rest =>
       if txt.isEmpty || tgt.isEmpty then none else some (txt, rest)
     | _ => none)
  | _ => none

/-- The `name.replace(/\[([^\]]+)\]\(([^)]+)\)/g, '$1')`: replace every
markdown link by its text (fuelled scan; each step consumes at least
one character). -/
def replaceLinksF : Nat → Str → Str
  | 0, s => s
  | fuel + 1, s =>
    match s with
    | [] => []
    | '[' :: t =>
      (match linkSplit t with
       | some (txt, rest) => txt ++ replaceLinksF fuel rest
       | none => '[' :: replaceLinksF fuel t)
    | c :: t => c :: replaceLinksF fuel t

def replaceLinks (s : Str) : Str := replaceLinksF s.length s

/-- The `path.resolve(dir, p)` (POSIX): an absolute `p` stands alone,
otherwise it is joined onto `dir`; `.`/`..` segments are normalised
away.  `dir` is always absolute at the call sites. -/
def pathResolve (dir p : Str) : Str :=
  let raw := if p.head? = some '/' then p else dir ++ '/' :: p
  let segs := (splitCh '/' raw).foldl
    (fun (acc : List Str) seg =>
      if seg = [] ∨ seg = str "." then acc
      else if seg = str ".." then acc.dropLast
      else acc ++ [seg]) []
  '/' :: joinCh '/' segs

/-- First run of digits in a string: the regex `/(\d+)/`. -/
def firstDigitRun (s : Str) : Option Str :=
  let rest := s.dropWhile (fun c => !isDigitC c)
  if rest.isEmpty then none else some (rest.takeWhile isDigitC)

/-- Column indices found in a table header row
(`parseTableStartingFrom`, step 1). -/
structure TableCols where
  statusC : Nat
  phaseC : Option Nat
  nameC : Option Nat
  descC : Option Nat
  linkC : Option Nat
deriving DecidableEq, Repr

/-- Header-row recognition of `parseTableStartingFrom`: a line with a
pipe whose (trimmed, lowercased, non-empty) cells contain a
status-named cell; also locates the `#`/`order`, `phase`/`phase name`,
`name`/`title`, `description`/`desc` and `link`/`file` columns. -/
def headerCols (line : Str) : Option TableCols :=
  if ¬ line.contains '|' then none
  else
    let cols := ((splitCh '|' line).map
      (fun c => jsToLower (jsTrim c))).filter (fun c => ¬ c.isEmpty)
    match cols.findIdx?
        (fun c => c == str "status" || jsIncludes c (str "status")) with
    | none => none
    | some si =>
      let numberC := cols.findIdx? (fun c => c == str "#" || c == str "order")
      let phaseNameC := cols.findIdx?
        (fun c => c == str "phase" || c == str "phase name")
      let pn : Option Nat × Option Nat :=
        match numberC, phaseNameC with
        | some n, some p => (some n, some p)
        | none, some p => (some p, none)
        | n, none => (n, none)
      let nameC :=
        match pn.2 with
        | some x => some x
        | none => cols.findIdx? (fun c =>
            c == str "name" || c == str "title" || c == str "phase name")
      let descC := cols.findIdx?
        (fun c => c == str "description" || c == str "desc")
      let linkC := cols.findIdx? (fun c => c == str "link" || c == str "file")
      some ⟨si, pn.1, nameC, descC, linkC⟩

/-- Scan for the header row, returning its absolute line index. -/
def findHeader : List Str → Nat → Option (Nat × TableCols)
  | [], _ => none
  | l :: rest, i =>
    match headerCols l with
    | some tc => some (i, tc)
    | none => findHeader rest (i + 1)

/-- Length of the run of consecutive pipe-containing lines (used to
skip past a rejected table). -/
def skipPipeRun : List Str → Nat
  | [] => 0
  | l :: rest => if l.contains '|' then 1 + skipPipeRun rest else 0

/-- The `cols[i]`, `undefined`/falsy out of range. -/
def colAt (cols : List Str) (i : Nat) : Str := cols.getD i []

/-- The `cols[i]` through an optional index (`-1` modelled as `none`). -/
def optCol (cols : List Str) : Option Nat → Str
  | some i => colAt cols i
  | none => []

/-- Data-row loop of `parseTableStartingFrom` (step 2): processes
lines after the header until the first line without a pipe; returns
the accepted phases and the number of lines consumed (including the
terminating line). -/
def procRows (tc : TableCols) (dir own : Str) :
    List Str → List PhaseData → List PhaseData × Nat
  | [], acc => (acc, 0)
  | l :: rest, acc =>
    if ¬ l.contains '|' then (acc, 1)
    else if jsIncludes l (str "---") || jsIncludes l (str "===") then
      let r := procRows tc dir own rest acc
      (r.1, r.2 + 1)
    else
      let cols := ((splitCh '|' l).map jsTrim).filter (fun c => ¬ c.isEmpty)
      if cols.length ≤ tc.statusC then
        let r := procRows tc dir own rest acc
        (r.1, r.2 + 1)
      else
        let statusText := colAt cols tc.statusC
        if ¬ isValidStatus statusText then
          let r := procRows tc dir own rest acc
          (r.1, r.2 + 1)
        else
          let phaseNum :=
            if optCol cols tc.phaseC ≠ [] then
              match firstDigitRun (optCol cols tc.phaseC) with
              | some ds => parseDigits ds
              | none => acc.length + 1
            else acc.length + 1
          let name0 : Str :=
            if optCol cols tc.descC ≠ [] then optCol cols tc.descC
            else if optCol cols tc.nameC ≠ [] then optCol cols tc.nameC
            else if optCol cols tc.phaseC ≠ [] then
              let phaseText := optCol cols tc.phaseC
              match execLink phaseText with
              | some (txt, _) => txt
              | none => if phaseText.all isDigitC then [] else phaseText
            else []
          let name1 := replaceLinks (removeBold name0)
          let name2 :=
            if name1 = [] then str "Phase " ++ natToStr phaseNum else name1
          let fl0 : Str × Str :=
            if optCol cols tc.linkC ≠ [] then
              match execLink (optCol cols tc.linkC) with
              | some (txt, pth) => (pathResolve dir pth, txt)
              | none => (own, name2)
            else (own, name2)
          let fl1 : Str × Str :=
            match cols.findSome? (fun col =>
              match execLink col with
              | some (txt, pth) =>
                if jsIncludes pth (str "phase-") then some (txt, pth) else none
              | none => none) with
            | some (txt, pth) => (pathResolve dir pth, txt)
            | none => fl0
          let ph : PhaseData :=
            { phase := phaseNum, name := jsTrim name2,
              status := normalizeStatus (some statusText),
              file := fl1.1, linkText := jsTrim fl1.2 }
          let r := procRows tc dir own rest (acc ++ [ph])
          (r.1, r.2 + 1)

/-- The `parseTableStartingFrom` from `planParser.ts`: find a header row at
or after `startLine`; reject tables with a status column but no
phase/name/description column (skipping past them); otherwise parse
the data rows.  Returns the phases and the next line to scan from. -/
def parseTableStartingFrom (lines : List Str) (startLine : Nat)
    (dir own : Str) : List PhaseData × Nat :=
  match findHeader (lines.drop startLine) startLine with
  | none => ([], lines.length)
  | some (h, tc) =>
    if tc.phaseC = none ∧ tc.nameC = none ∧ tc.descC = none then
      ([], h + 1 + skipPipeRun (lines.drop (h + 1)))
    else
      let r := procRows tc dir own (lines.drop (h + 1)) []
      (r.1, h + 1 + r.2)

/-- Scan loop of `parseMultiColumnTable`: try tables in document order
until one yields phases (fuelled; the scan position strictly
increases). -/
def multiScan (lines : List Str) (dir own : Str) : Nat → Nat → List PhaseData
  | 0, _ => []
  | fuel + 1, start =>
    if start < lines.length then
      let r := parseTableStartingFrom lines start dir own
      if ¬ r.1.isEmpty then r.1
      else if r.2 ≤ start then []
      else multiScan lines dir own fuel r.2
    else []

/-- Format 1: `parseMultiColumnTable` from `planParser.ts`. -/
def parseMultiColumnTable (content dir own : Str) : List PhaseData :=
  let lines := splitLines content
  multiScan lines dir own (lines.length + 1) 0

/-- Case-insensitive literal prefix test (`kw` must be lowercase). -/
def ciPrefix (kw : Str) (s : Str) : Bool :=
  jsToLower (s.take kw.length) == kw

/-- Anchored match for `parseLinkFirstTable`'s regex after its leading
pipe: `\s*\[(?:Phase\s*)?(\d+)\]\(([^)]+)\)\s*\|\s*([^|]+)\s*\|\s*([^|]+)`.
Returns the number capture, link path, name cell, status cell and the
text after the match.  ("Phase" is case-sensitive here: the regex has
no `i` flag.) -/
def lfMatchAt (t : Str) : Option (Str × Str × Str × Str × Str) :=
  let s1 := t.dropWhile isWS
  match s1 with
  | '[' :: s2 =>
    let sD := if (str "Phase").isPrefixOf s2
      then (s2.drop 5).dropWhile isWS else s2
    let d := sD.takeWhile isDigitC
    if d.isEmpty then none
    else match sD.drop d.length with
    | ']' :: '(' :: u =>
      let pth := u.takeWhile (fun c => c ≠ ')')
      if pth.isEmpty then none
      else match u.drop pth.length with
      | ')' :: v =>
        (match v.dropWhile isWS with
         | '|' :: w =>
           let cell1 := w.takeWhile (fun c => c ≠ '|')
           if cell1.isEmpty then none
           else match w.drop cell1.length with
           | '|' :: x =>
             let cell2 := x.takeWhile (fun c => c ≠ '|')
             if cell2.isEmpty then none
             else some (d, pth, cell1, cell2, x.drop cell2.length)
           | _ => none
         | _ => none)
      | _ => none
    | _ => none
  | _ => none

/-- Global scan loop of `parseLinkFirstTable` (fuelled; the regex
engine advances one character on a failed attempt and to the match end
on success). -/
def lfScan (dir : Str) : Nat → Str → List PhaseData
  | 0, _ => []
  | _ + 1, [] => []
  | fuel + 1, '|' :: t =>
    (match lfMatchAt t with
     | some (d, pth, name, status, rest) =>
       (if isValidStatus status then
          [{ phase := parseDigits d, name := jsTrim name,
             status := normalizeStatus (some status),
             file := pathResolve dir pth,
             linkText := str "Phase " ++ d }]
        else []) ++ lfScan dir fuel rest
     | none => lfScan dir fuel t)
  | fuel + 1, _ :: t => lfScan dir fuel t

/-- Format 2: `parseLinkFirstTable` from `planParser.ts`. -/
def parseLinkFirstTable (content dir : Str) : List PhaseData :=
  lfScan dir (content.length + 1) content

/-- The status-emoji class of the numbered-list regex. -/
def statusEmoji (c : Char) : Bool :=
  c = '✅' || c = '⏳' || c = '🔄' || c = '❌' || c = '○' || c = '⟳' ||
  c = '✓'

/-- The keyword alternation
`COMPLETE|COMPLETED|DONE|IN[- ]?PROGRESS|PENDING|WIP|TODO|CANCELLED|NOT[- ]?STARTED|PLANNED`
(case-insensitive), in regex order; returns the matched length.
(`COMPLETED` is shadowed by `COMPLETE`.) -/
def nlKeyword (s : Str) : Option Nat :=
  if ciPrefix (str "complete") s then some 8
  else if ciPrefix (str "done") s then some 4
  else if ciPrefix (str "in-progress") s then some 11
  else if ciPrefix (str "in progress") s then some 11
  else if ciPrefix (str "inprogress") s then some 10
  else if ciPrefix (str "pending") s then some 7
  else if ciPrefix (str "wip") s then some 3
  else if ciPrefix (str "todo") s then some 4
  else if ciPrefix (str "cancelled") s then some 9
  else if ciPrefix (str "not-started") s then some 11
  else if ciPrefix (str "not started") s then some 11
  else if ciPrefix (str "notstarted") s then some 10
  else if ciPrefix (str "planned") s then some 7
  else none

/-- Anchored per-line match of the numbered-list regex
`^(\d+)\.\s*\*\*([^*]+)\*\*[^-\n]*-\s*((?:[emoji])?\s*(?:KW)[^\n-]*)`:
returns the number capture, the bold name and the status capture
(emoji, inner whitespace, keyword and the dash-free tail). -/
def nlMatchLine (line : Str) : Option (Str × Str × Str) :=
  let d := line.takeWhile isDigitC
  if d.isEmpty then none
  else match line.drop d.length with
  | '.' :: r1 =>
    (match r1.dropWhile isWS with
     | '*' :: '*' :: r3 =>
       let nm := r3.takeWhile (fun c => c ≠ '*')
       if nm.isEmpty then none
       else (match r3.drop nm.length with
         | '*' :: '*' :: r4 =>
           let mid := r4.takeWhile (fun c => c ≠ '-')
           (match r4.drop mid.length with
            | '-' :: r5 =>
              let r6 := r5.dropWhile isWS
              let er : Str × Str :=
                match r6 with
                | c :: rr => if statusEmoji c then ([c], rr) else ([], r6)
                | [] => ([], r6)
              let ws2 := er.2.takeWhile isWS
              let r8 := er.2.dropWhile isWS
              (match nlKeyword r8 with
               | some k =>
                 let tail := (r8.drop k).takeWhile (fun c => c ≠ '-')
                 some (d, nm, er.1 ++ ws2 ++ r8.take k ++ tail)
               | none => none)
            | _ => none)
         | _ => none)
     | _ => none)
  | _ => none

/-- Format 3: `parseNumberedListWithStatus` from `planParser.ts`. -/
def parseNumberedListWithStatus (content own : Str) : List PhaseData :=
  (splitLines content).filterMap (fun line =>
    match nlMatchLine line with
    | some (d, nm, st) =>
      some { phase := parseDigits d, name := jsTrim nm,
             status := normalizeStatus (some st),
             file := own, linkText := jsTrim nm }
    | none => none)

/-- Anchored match of the heading regex `###\s*Phase\s*(\d+)[:\s]+(.+)`
(case-insensitive) at a position: returns the number capture and the
name capture.  When the `[:\s]+` run reaches the end of the line, the
regex backtracks so that `(.+)` captures the run's last character. -/
def headMatchAt : Str → Option (Str × Str)
  | '#' :: '#' :: '#' :: r =>
    let r1 := r.dropWhile isWS
    if ciPrefix (str "phase") r1 then
      let r2 := (r1.drop 5).dropWhile isWS
      let d := r2.takeWhile isDigitC
      if d.isEmpty then none
      else
        let r3 := r2.drop d.length
        let sep := r3.takeWhile (fun c => c = ':' || isWS c)
        if sep.isEmpty then none
        else
          let rest := r3.drop sep.length
          if ¬ rest.isEmpty then some (d, rest)
          else if 2 ≤ sep.length then some (d, [(sep.getLast?).getD ' '])
          else none
    else none
  | _ => none

/-- Leftmost heading match in a line. -/
def headingExec : Str → Option (Str × Str)
  | [] => none
  | c :: t =>
    match headMatchAt (c :: t) with
    | some r => some r
    | none => headingExec t

/-- Anchored match of the status-line regex `-\s*Status:\s*(.+)`
(case-insensitive) at a position: returns the value capture. -/
def statusLineAt : Str → Option Str
  | '-' :: r =>
    let r1 := r.dropWhile isWS
    if ciPrefix (str "status:") r1 then
      let r2 := r1.drop 7
      let w := r2.takeWhile isWS
      let rest := r2.drop w.length
      if ¬ rest.isEmpty then some rest
      else if ¬ w.isEmpty then some [(w.getLast?).getD ' ']
      else none
    else none
  | _ => none

/-- Leftmost status-line match in a line. -/
def statusLineExec : Str → Option Str
  | [] => none
  | c :: t =>
    match statusLineAt (c :: t) with
    | some r => some r
    | none => statusLineExec t

/-- One line of the `parseHeadingBased` loop: a heading line pushes the
phase under construction and starts a new one; then (whether or not
this line was a heading) a status-line match overwrites the current
phase's status. -/
def hbStep (own : Str) (st : Option PhaseData × List PhaseData)
    (line : Str) : Option PhaseData × List PhaseData :=
  let st1 : Option PhaseData × List PhaseData :=
    match headingExec line with
    | some dn =>
      (some { phase := parseDigits dn.1, name := jsTrim dn.2,
              status := .pending, file := own,
              linkText := str "Phase " ++ natToStr (parseDigits dn.1) },
       match st.1 with
       | some p => st.2 ++ [p]
       | none => st.2)
    | none => st
  match st1.1 with
  | some cur =>
    (match statusLineExec line with
     | some v =>
       (some { cur with status := normalizeStatus (some v) }, st1.2)
     | none => st1)
  | none => st1

/-- Format 4: `parseHeadingBased` from `planParser.ts`. -/
def parseHeadingBased (content own : Str) : List PhaseData :=
  let r := (splitLines content).foldl (hbStep own) (none, [])
  match r.1 with
  | some p => r.2 ++ [p]
  | none => r.2

/-- Anchored per-line match of the checkbox regex
`^-\s*\[(x| )\]\s*\*\*\[(?:Phase\s*)?(\d+)[:\s]*([^\]]*)\]\(([^)]+)\)\*\*`
(case-insensitive), returning the parsed phase. -/
def cbMatchLine (dir : Str) (line : Str) : Option PhaseData :=
  match line with
  | '-' :: r =>
    (match r.dropWhile isWS with
     | '[' :: c :: ']' :: r2 =>
       if c = 'x' || c = 'X' || c = ' ' then
         match r2.dropWhile isWS with
         | '*' :: '*' :: '[' :: r4 =>
           let r5 := if ciPrefix (str "phase") r4
             then (r4.drop 5).dropWhile isWS else r4
           let d := r5.takeWhile isDigitC
           if d.isEmpty then none
           else
             let r6 := (r5.drop d.length).dropWhile
               (fun c => c = ':' || isWS c)
             let nm := r6.takeWhile (fun c => c ≠ ']')
             match r6.drop nm.length with
             | ']' :: '(' :: r7 =>
               let pth := r7.takeWhile (fun c => c ≠ ')')
               if pth.isEmpty then none
               else (match r7.drop pth.length with
                 | ')' :: '*' :: '*' :: _ =>
                   let disp :=
                     if (jsTrim nm).isEmpty then str "Phase " ++ d
                     else jsTrim nm
                   some { phase := parseDigits d, name := disp,
                          status := if c = 'x' || c = 'X'
                            then .completed else .pending,
                          file := pathResolve dir pth, linkText := disp }
                 | _ => none)
             | _ => none
         | _ => none
       else none
     | _ => none)
  | _ => none

/-- Format 5: `parseCheckboxList` from `planParser.ts`. -/
def parseCheckboxList (content dir own : Str) : List PhaseData :=
  let _ := own
  (splitLines content).filterMap (cbMatchLine dir)

-- ## The phase-file metadata extractor (`phaseMetadataExtractor.ts`)

/-- Metadata extracted from a phase file (`PhaseFileMetadata`). -/
structure PhaseFileMetadata where
  status : PhaseStatus
  reviewStatus : Option Str := none
  effort : Option Str := none
  priority : Option Str := none
  description : Option Str := none
  dependsOn : Option Str := none
  date : Option Str := none
deriving DecidableEq, Repr

/-- The partial record built while folding over matches. -/
structure PFMPartial where
  status : Option PhaseStatus := none
  reviewStatus : Option Str := none
  effort : Option Str := none
  priority : Option Str := none
  description : Option Str := none
  dependsOn : Option Str := none
  date : Option Str := none
deriving DecidableEq, Repr

/-- Global scan of the two-column row regex
`\|\s*([^|]+?)\s*\|\s*([^|]+?)\s*\|`: each match needs three pipes with
non-empty runs between them; the captures are the trimmed runs and the
match consumes the third pipe (fuelled; one character is consumed per
failed position). -/
def rowScan : Nat → Str → List (Str × Str)
  | 0, _ => []
  | _ + 1, [] => []
  | fuel + 1, '|' :: t =>
    let c1 := t.takeWhile (fun c => c ≠ '|')
    (if c1.isEmpty then rowScan fuel t
     else match t.drop c1.length with
     | '|' :: u =>
       let c2 := u.takeWhile (fun c => c ≠ '|')
       (if c2.isEmpty then rowScan fuel t
        else match u.drop c2.length with
        | '|' :: v => (jsTrim c1, jsTrim c2) :: rowScan fuel v
        | _ => rowScan fuel t)
     | _ => rowScan fuel t)
  | fuel + 1, _ :: t => rowScan fuel t

/-- Field dispatch of `extractFromOverviewTable`'s row loop. -/
def ovStep (m : PFMPartial) (row : Str × Str) : PFMPartial :=
  let field := jsToLower row.1
  let value := row.2
  if field == str "field" || jsIncludes field (str "---") then m
  else if field == str "implementation status" || field == str "status" then
    { m with status := some (normalizeStatus (some value)) }
  else if field == str "review status" then
    { m with reviewStatus := some value }
  else if field == str "effort" then { m with effort := some value }
  else if field == str "priority" then { m with priority := some value }
  else if field == str "description" then { m with description := some value }
  else if field == str "depends on" || field == str "dependencies" then
    { m with dependsOn := some value }
  else if field == str "date" then { m with date := some value }
  else m

/-- Format a of the phase-file extractor: the overview table. -/
def extractFromOverviewTable (content : Str) : Option PhaseFileMetadata :=
  let m := (rowScan (content.length + 1) content).foldl ovStep {}
  match m.status with
  | none => none
  | some st =>
    some { status := st, reviewStatus := m.reviewStatus,
           effort := m.effort, priority := m.priority,
           description := m.description, dependsOn := m.dependsOn,
           date := m.date }

/-- Value part of an inline `**Key**: value` match: skip `\s*` (which
may cross line breaks) and capture the run free of `|`, `*` and
newlines; when only whitespace is available before a stopper the regex
backtracks into the whitespace, capturing text that trims to the empty
string.  Returns the trimmed capture and the scan-resume point. -/
def inlineValueAt (seg : Str) : Option (Str × Str) :=
  let w := seg.takeWhile isWS
  let rest := seg.dropWhile isWS
  match rest with
  | [] => if w.any (fun c => c ≠ '\n') then some ([], []) else none
  | c :: _ =>
    if c = '|' || c = '*' then
      if w.any (fun c => c ≠ '\n') then some ([], rest) else none
    else
      let run := rest.takeWhile (fun c => ¬(c = '|' || c = '*' || c = '\n'))
      some (jsTrim run, rest.drop run.length)

/-- The `:?` of the inline pattern: try with the colon consumed, then
without. -/
def inlineAfterKey (seg : Str) : Option (Str × Str) :=
  match seg with
  | ':' :: seg2 =>
    (match inlineValueAt seg2 with
     | some r => some r
     | none => inlineValueAt seg)
  | _ => inlineValueAt seg

/-- Global scan of the inline pattern `\*\*([^*]+)\*\*:?\s*([^|*\n]+)`
(fuelled). -/
def inlineScan : Nat → Str → List (Str × Str)
  | 0, _ => []
  | _ + 1, [] => []
  | fuel + 1, '*' :: '*' :: t =>
    let key := t.takeWhile (fun c => c ≠ '*')
    (if key.isEmpty then inlineScan fuel ('*' :: t)
     else match t.drop key.length with
     | '*' :: '*' :: seg =>
       (match inlineAfterKey seg with
        | some vr => (key, vr.1) :: inlineScan fuel vr.2
        | none => inlineScan fuel ('*' :: t))
     | _ => inlineScan fuel ('*' :: t))
  | fuel + 1, _ :: t => inlineScan fuel t

/-- Format b of the phase-file extractor: inline bold metadata in the
first 20 lines. -/
def extractFromInlineMetadata (content : Str) : Option PhaseFileMetadata :=
  let headerSection := joinCh '\n' ((splitLines content).take 20)
  let m := (inlineScan (headerSection.length + 1) headerSection).foldl
    (fun (m : PFMPartial) kv =>
      let field := jsToLower (jsTrim kv.1)
      let value := kv.2
      if field == str "status" then
        { m with status := some (normalizeStatus (some value)) }
      else if field == str "effort" then { m with effort := some value }
      else if field == str "priority" then { m with priority := some value }
      else if field == str "depends on" then
        { m with dependsOn := some value }
      else m) {}
  match m.status with
  | none => none
  | some st =>
    some { status := st, effort := m.effort, priority := m.priority,
           dependsOn := m.dependsOn }

/-- Modelled from the spec: the `gray-matter` frontmatter split plus the
standard-library YAML parse of the leading `---`-delimited block, which
the repository delegates to an external package (not under `src/`).
Modelled for flat `key: value` scalar blocks: the first line must be
the delimiter, a closing delimiter line must exist, and every non-blank
line of the block must contain a colon (otherwise the parse errors,
which callers catch and treat as no frontmatter). -/
def parseYamlLines : List Str → Option (List (Str × Str))
  | [] => some []
  | l :: rest =>
    if (jsTrim l).isEmpty then parseYamlLines rest
    else
      let key := l.takeWhile (fun c => c ≠ ':')
      match l.drop key.length with
      | ':' :: v =>
        (match parseYamlLines rest with
         | some es => some ((jsTrim key, jsTrim v) :: es)
         | none => none)
      | _ => none

/-- Modelled from the spec: `matter(content).data` for flat scalar
blocks (see `parseYamlLines`); `none` is both "no frontmatter" and a
YAML parse error (the call sites treat the thrown error as `null`). -/
def parseFrontmatterBlock (content : Str) : Option (List (Str × Str)) :=
  match splitLines content with
  | [] => none
  | first :: rest =>
    if jsTrim first = str "---" then
      let body := rest.takeWhile (fun l => jsTrim l ≠ str "---")
      if (rest.drop body.length).isEmpty then none
      else parseYamlLines body
    else none

/-- Last binding of a key in a parsed YAML block (later duplicate keys
win). -/
def yamlGet (es : List (Str × Str)) (k : Str) : Option Str :=
  es.foldl (fun acc e => if e.1 == k then some e.2 else acc) none

/-- JS truthiness of a YAML-derived field in the embedding: absent,
empty, and the scalars parsed to false/0/null are falsy. -/
def yamlTruthy : Option Str → Bool
  | none => false
  | some s =>
    ¬(s.isEmpty || s == str "false" || s == str "0" || s == str "null" ||
      s == str "~")

/-- The `a || b` on optional YAML-derived strings. -/
def yamlOr (a b : Option Str) : Option Str :=
  if yamlTruthy a then a else b

/-- Format c of the phase-file extractor: YAML frontmatter; requires a
truthy `status` field. -/
def extractFromFrontmatterPhase (content : Str) : Option PhaseFileMetadata :=
  if ¬ (str "---").isPrefixOf (jsTrim content) then none
  else match parseFrontmatterBlock content with
  | none => none
  | some data =>
    if ¬ yamlTruthy (yamlGet data (str "status")) then none
    else
      some { status := normalizeStatus (yamlGet data (str "status")),
             effort := yamlGet data (str "effort"),
             priority := yamlGet data (str "priority"),
             description := yamlGet data (str "description"),
             dependsOn := yamlOr (yamlGet data (str "depends_on"))
               (yamlGet data (str "dependsOn")),
             date := yamlOr (yamlGet data (str "date"))
               (yamlGet data (str "created")) }

/-- The file system seen by the parsers: `read` is `none` when the file
is missing or unreadable (an access/read failure), `mtime` is the stat
modification time. -/
structure FS where
  read : Str → Option Str
  mtime : Str → Option Int

/-- The `extractPhaseMetadata` from `phaseMetadataExtractor.ts`: read the
file (unreadable → `null`), then try the overview table, the inline
metadata, and the frontmatter, in that order. -/
def extractPhaseMetadata (fs : FS) (filePath : Str) :
    Option PhaseFileMetadata :=
  match fs.read filePath with
  | none => none
  | some content =>
    match extractFromOverviewTable content with
    | some m => some m
    | none =>
      match extractFromInlineMetadata content with
      | some m => some m
      | none => extractFromFrontmatterPhase content

/-- The `metadata.effort || phase.effort`: an empty extracted effort falls
back to the existing one. -/
def strOr (a b : Option Str) : Option Str :=
  match a with
  | some s => if s.isEmpty then b else some s
  | none => b

/-- The per-phase body of `enrichPhasesWithFileMetadata`: a phase
whose file path is falsy or does not contain "phase-" passes through
(`!phase.file || !phase.file.includes('phase-')`); otherwise the phase
file's metadata (if any) overrides the status and, when non-empty, the
effort; a failed extraction passes the phase through. -/
def enrichOne (fs : FS) (phase : PhaseData) : PhaseData :=
  if phase.file = [] ∨ jsIncludes phase.file (str "phase-") = false then
    phase
  else
    match extractPhaseMetadata fs phase.file with
    | some m =>
      { phase with status := m.status,
                   effort := strOr m.effort phase.effort }
    | none => phase

/-- The `enrichPhasesWithFileMetadata` from `planParser.ts` (the
`Promise.all` over `phases.map` preserves the list order). -/
def enrichPhasesWithFileMetadata (fs : FS) (phases : List PhaseData) :
    List PhaseData :=
  phases.map (enrichOne fs)

/-- The `path.dirname` (POSIX). -/
def pathDirname (p : Str) : Str :=
  let parts := splitCh '/' p
  if parts.length ≤ 1 then str "."
  else
    let d := joinCh '/' parts.dropLast
    if d.isEmpty then str "/" else d

/-- The strategy cascade of `parsePlanTable` from `planParser.ts`,
after the file content has been read: each strategy is tried in order
and the first non-empty result is enriched and returned. -/
def parsePlanTableContent (content dir own : Str) (fs : FS) :
    List PhaseData :=
  let p1 := parseMultiColumnTable content dir own
  if ¬ p1.isEmpty then enrichPhasesWithFileMetadata fs p1
  else
    let p2 := parseLinkFirstTable content dir
    if ¬ p2.isEmpty then enrichPhasesWithFileMetadata fs p2
    else
      let p3 := parseNumberedListWithStatus content own
      if ¬ p3.isEmpty then enrichPhasesWithFileMetadata fs p3
      else
        let p4 := parseHeadingBased content own
        if ¬ p4.isEmpty then enrichPhasesWithFileMetadata fs p4
        else
          let p5 := parseCheckboxList content dir own
          if ¬ p5.isEmpty then enrichPhasesWithFileMetadata fs p5
          else p5

/-- The `parsePlanTable` from `planParser.ts`: reading the plan file is the
only operation whose failure propagates (`none`). -/
def parsePlanTable (fs : FS) (planFilePath : Str) :
    Option (List PhaseData) :=
  (fs.read planFilePath).map (fun content =>
    parsePlanTableContent content (pathDirname planFilePath)
      planFilePath fs)

/-- The `results.set(file, v)` on the `Map` of `parsePlans`. -/
def mapSet (m : List (Str × List PhaseData)) (k : Str)
    (v : List PhaseData) : List (Str × List PhaseData) :=
  if m.any (fun e => e.1 == k) then
    m.map (fun e => if e.1 == k then (k, v) else e)
  else m ++ [(k, v)]

/-- The `results.get(file)`. -/
def mapLookup (m : List (Str × List PhaseData)) (k : Str) :
    Option (List PhaseData) :=
  (m.find? (fun e => e.1 == k)).map (fun e => e.2)

/-- The `parsePlans` from `planParser.ts`: every file is processed; a file
whose parse fails (its read errors) contributes an empty phase list
instead of aborting the batch. -/
def parsePlans (fs : FS) (planFiles : List Str) :
    List (Str × List PhaseData) :=
  planFiles.foldl
    (fun m file => mapSet m file ((parsePlanTable fs file).getD [])) []

-- ## The plan metadata extractor (`metadataExtractor.ts`)

/-- A date value held by a plan record: either `new Date(<string>)`
from frontmatter/header text (parse semantics opaque to the claims) or
the civil triple produced via `parseDateFromDirName`. -/
inductive PlanDate where
  | fromStr (s : Str)
  | civil (y m d : Int)
deriving DecidableEq, Repr

/-- The `PlanData` from `types.ts` (`lastModified` is the stat mtime). -/
structure PlanData where
  id : Str
  name : Str
  path : Str
  status : PlanStatus
  phases : List PhaseData
  completedCount : Nat
  totalCount : Nat
  percentage : Nat
  lastModified : Int
  description : Option Str
  priority : Option Str
  tags : List Str
  issue : Option Str
  branch : Option Str
  effort : Option Str
  createdDate : Option PlanDate
  completedDate : Option PlanDate
deriving DecidableEq, Repr

/-- The `normalizeMetadataStatus` from `metadataExtractor.ts`. -/
def normalizeMetadataStatus (status : Option Str) : PlanStatus :=
  if ¬ yamlTruthy status then .pending
  else
    match status with
    | none => .pending
    | some st =>
      let s := jsTrim (jsToLower st)
      if s = str "complete" ∨ s = str "completed" ∨ s = str "done" then
        .completed
      else if s = str "in-progress" ∨ s = str "in_progress" ∨
          s = str "active" ∨ s = str "wip" then .inProgress
      else if s = str "cancelled" ∨ s = str "canceled" then .cancelled
      else .pending

/-- The `data.x || undefined` on a YAML-derived field. -/
def optTruthy (v : Option Str) : Option Str :=
  if yamlTruthy v then v else none

/-- Modelled from the spec: a YAML flow array `[a, b]` (the only array
field is `tags`); any non-array value degrades to the empty list, as
the source's `Array.isArray` guard dictates. -/
def parseYamlArr (v : Option Str) : List Str :=
  match v with
  | some ('[' :: r) =>
    let inner := r.takeWhile (fun c => c ≠ ']')
    (splitCh ',' inner).map jsTrim
  | _ => []

/-- Fields extracted by one of the plan metadata sources; every field
is optional (`undefined` when the source does not provide it). -/
structure PlanMetaPartial where
  name : Option Str := none
  description : Option Str := none
  status : Option PlanStatus := none
  priority : Option Str := none
  effort : Option Str := none
  tags : List Str := []
  branch : Option Str := none
  issue : Option Str := none
  createdDate : Option PlanDate := none
  completedDate : Option PlanDate := none
deriving DecidableEq, Repr

/-- The `extractFromFrontmatter` from `metadataExtractor.ts` (plan level):
requires content, a leading delimiter, a parseable block and at least
one key. -/
def extractFromFrontmatterPlan (content : Str) : Option PlanMetaPartial :=
  if content.isEmpty then none
  else if ¬ (str "---").isPrefixOf (jsTrim content) then none
  else match parseFrontmatterBlock content with
  | none => none
  | some data =>
    if data.isEmpty then none
    else
      some { name := optTruthy (yamlGet data (str "title")),
             description := optTruthy (yamlGet data (str "description")),
             status := some (normalizeMetadataStatus
               (yamlGet data (str "status"))),
             priority := normalizePriority (yamlGet data (str "priority")),
             effort := optTruthy (yamlGet data (str "effort")),
             tags := parseYamlArr (yamlGet data (str "tags")),
             branch := optTruthy (yamlGet data (str "branch")),
             issue := optTruthy (yamlGet data (str "issue")),
             createdDate := (optTruthy (yamlGet data (str "created"))).map
               PlanDate.fromStr,
             completedDate := (optTruthy (yamlGet data (str "completed"))).map
               PlanDate.fromStr }

/-- Leftmost-match scan of an anchored matcher, as a regex engine
performs it. -/
def scanFor {α : Type} (payload : Str → Option α) : Str → Option α
  | [] => none
  | c :: t =>
    match payload (c :: t) with
    | some r => some r
    | none => scanFor payload t

/-- Anchored match of `\*\*<key>:?\*\*:?` (case-insensitive key);
returns the text after the match. -/
def headerKeyAt (key : Str) (s : Str) : Option Str :=
  match s with
  | '*' :: '*' :: r =>
    if ciPrefix key r then
      let r1 := r.drop key.length
      let r2 : Option Str :=
        match r1 with
        | ':' :: '*' :: '*' :: y => some y
        | '*' :: '*' :: y => some y
        | _ => none
      match r2 with
      | some r3 =>
        some (match r3 with
              | ':' :: y => y
              | _ => r3)
      | none => none
    else none
  | _ => none

/-- The `(P[0-3]|High|Medium|Low)` (case-insensitive), after `\s*`. -/
def prioPayload (seg : Str) : Option Str :=
  let v := seg.dropWhile isWS
  match v with
  | a :: b :: _ =>
    if (a = 'P' ∨ a = 'p') ∧ (b = '0' ∨ b = '1' ∨ b = '2' ∨ b = '3') then
      some [a, b]
    else if ciPrefix (str "high") v then some (v.take 4)
    else if ciPrefix (str "medium") v then some (v.take 6)
    else if ciPrefix (str "low") v then some (v.take 3)
    else none
  | _ =>
    if ciPrefix (str "low") v then some (v.take 3) else none

/-- The `\s*` then a capture stopping at the given characters; when only
whitespace precedes a stopper the regex backtracks into the
whitespace, capturing text that trims to the empty string. -/
def wsCapture (stop : Char → Bool) (seg : Str) : Option Str :=
  let w := seg.takeWhile isWS
  let rest := seg.dropWhile isWS
  match rest with
  | [] => if w.any (fun c => !stop c) then some [] else none
  | c :: _ =>
    if stop c then
      if w.any (fun c => !stop c) then some [] else none
    else some (rest.takeWhile (fun c => !stop c))

/-- The `` `?([^`\n]+)`? `` after `\s*` (the branch pattern). -/
def branchPayload (seg : Str) : Option Str :=
  let bt : Char := '\x60'
  let v := seg.dropWhile isWS
  let v2 := match v with
    | c :: r => if c = bt then r else v
    | [] => v
  let run := v2.takeWhile (fun c => ¬(c = bt ∨ c = '\n'))
  if run.isEmpty then
    if (seg.takeWhile isWS).any (fun c => c ≠ '\n') then some [] else none
  else some run

/-- The lazy `.*?issues\/(\d+)` scan, confined to the current line. -/
def issueScan : Str → Option Str
  | [] => none
  | c :: t =>
    if c = '\n' then none
    else if ciPrefix (str "issues/") (c :: t) then
      let d := ((c :: t).drop 7).takeWhile isDigitC
      if d.isEmpty then issueScan t else some d
    else issueScan t

/-- The `(?:#(\d+)|.*?issues\/(\d+))` after `\s*`. -/
def issuePayload (seg : Str) : Option Str :=
  let v := seg.dropWhile isWS
  match v with
  | '#' :: r =>
    let d := r.takeWhile isDigitC
    if ¬ d.isEmpty then some d else issueScan v
  | _ => issueScan v

/-- The `(\d{4}-\d{2}-\d{2})` after `\s*`. -/
def datePayload (seg : Str) : Option Str :=
  match seg.dropWhile isWS with
  | a :: b :: c :: d :: '-' :: e :: f :: '-' :: g :: h :: _ =>
    if [a, b, c, d, e, f, g, h].all isDigitC then
      some [a, b, c, d, '-', e, f, '-', g, h]
    else none
  | _ => none

/-- The metadata found by `extractFromHeader`. -/
structure HeaderMeta where
  priority : Option Str := none
  status : Option PlanStatus := none
  branch : Option Str := none
  issue : Option Str := none
  createdDate : Option PlanDate := none
deriving DecidableEq, Repr

/-- The `extractFromHeader` from `metadataExtractor.ts`: bold-label
patterns in the first 50 lines. -/
def extractFromHeader (content : Str) : HeaderMeta :=
  let headerSection := joinCh '\n' ((splitLines content).take 50)
  { priority := (scanFor (fun s =>
      (headerKeyAt (str "priority") s).bind prioPayload) headerSection).bind
      (fun cap => normalizePriority (some cap)),
    status := (scanFor (fun s =>
      (headerKeyAt (str "status") s).bind
        (wsCapture (fun c => c = '\n' || c = '('))) headerSection).map
      (fun cap => normalizeMetadataStatus (some (jsTrim cap))),
    branch := (scanFor (fun s =>
      (headerKeyAt (str "branch") s).bind branchPayload) headerSection).map
      jsTrim,
    issue := scanFor (fun s =>
      (headerKeyAt (str "issue") s).bind issuePayload) headerSection,
    createdDate := (scanFor (fun s =>
      (match headerKeyAt (str "created") s with
       | some r => some r
       | none => headerKeyAt (str "date") s).bind datePayload)
      headerSection).map PlanDate.fromStr }

/-- The `extractDescription` from `metadataExtractor.ts`: the paragraph
after `## Overview`, reduced to its first sentence or first 150
characters. -/
def extractDescription (content : Str) : Option Str :=
  let payload : Str → Option Str := fun s =>
    match s with
    | '#' :: '#' :: r0 =>
      let r1 := r0.dropWhile isWS
      if ciPrefix (str "overview") r1 then
        let r2 := r1.drop 8
        let w := r2.takeWhile isWS
        let rest := r2.drop w.length
        if ¬ w.contains '\n' then none
        else
          let wTail := (w.reverse.takeWhile (fun c => c ≠ '\n')).reverse
          let run := rest.takeWhile (fun c => ¬(c = '\n' ∨ c = '#'))
          let cap := wTail ++
            (match rest with
             | c :: _ => if c = '#' then [] else run
             | [] => [])
          if cap.isEmpty then none else some cap
      else none
    | _ => none
  match scanFor payload content with
  | none => none
  | some cap =>
    let desc := jsTrim cap
    let t := desc.takeWhile (fun c => ¬(c = '.' ∨ c = '!' ∨ c = '?'))
    if t.isEmpty then some (jsTrim (desc.take 150))
    else if t.length < desc.length then
      some (jsTrim (t ++ [(desc.drop t.length).head?.getD '.']))
    else some (jsTrim (desc.take 150))

/-- The `path.basename` (POSIX). -/
def pathBasename (p : Str) : Str :=
  (((splitCh '/' p).filter (fun s => ¬ s.isEmpty)).getLast?).getD []

/-- The `getPlanId` from `planScanner.ts`: the name of the directory
containing the plan file. -/
def getPlanId (planPath : Str) : Str := pathBasename (pathDirname planPath)

/-- The `^\d{6}(-\d{4})?-` date-prefix strip of `getPlanDisplayName`. -/
def stripDatePrefix (s : Str) : Str :=
  if (s.take 6).length = 6 ∧ (s.take 6).all isDigitC then
    match s.drop 6 with
    | '-' :: r2 =>
      if (r2.take 4).length = 4 ∧ (r2.take 4).all isDigitC ∧
          (r2.drop 4).head? = some '-' then r2.drop 5
      else r2
    | _ => s
  else s

/-- The `word.charAt(0).toUpperCase() + word.slice(1)`. -/
def capitalizeWord : Str → Str
  | [] => []
  | c :: t => Char.toUpper c :: t

/-- The `getPlanDisplayName` from `planScanner.ts`. -/
def getPlanDisplayName (planId : Str) : Str :=
  joinCh ' ' ((splitCh '-' (stripDatePrefix planId)).map capitalizeWord)

/-- The `Math.round((completedCount / totalCount) * 100)` for natural
counts with `totalCount > 0`, embedded as exact rational arithmetic:
`⌊(100·c/t) + 1/2⌋ = (200·c + t) / (2·t)` in natural division
(`Math.round` rounds half-integers up). -/
def jsRoundPct (c t : Nat) : Nat := (200 * c + t) / (2 * t)

/-- The `a || b` for a string against a string default. -/
def jsOrStr (a : Option Str) (b : Str) : Str :=
  match a with
  | some s => if s.isEmpty then b else s
  | none => b

/-- The `a || b` for optional strings (empty is falsy). -/
def jsOrOpt (a b : Option Str) : Option Str :=
  match a with
  | some s => if s.isEmpty then b else some s
  | none => b

/-- The `extractPlanData` from `metadataExtractor.ts`: read the plan file
and its mtime, parse + enrich the phases, extract frontmatter, header
and directory-name metadata, and assemble the plan record with the
counting invariant and the frontmatter > header > derived precedence.
A failure of the primary reads propagates (`none`). -/
def extractPlanData (fs : FS) (planPath : Str) : Option PlanData :=
  match fs.read planPath with
  | none => none
  | some content =>
    match fs.mtime planPath with
    | none => none
    | some mt =>
      match parsePlanTable fs planPath with
      | none => none
      | some phases =>
        let planId := getPlanId planPath
        let fm := extractFromFrontmatterPlan content
        let hm := extractFromHeader content
        let dirDate := (parseDateFromDirName planId).map
          (fun c => PlanDate.civil c.1 c.2.1 c.2.2)
        let completedCount :=
          (phases.filter (fun p => p.status = .completed)).length
        let totalCount := phases.length
        let calculated := calculatePlanStatus (phases.map (fun p => p.status))
        some {
          id := planId,
          name := jsOrStr (fm.bind (fun f => f.name))
            (getPlanDisplayName planId),
          path := planPath,
          status :=
            match fm.bind (fun f => f.status) with
            | some st => st
            | none =>
              match hm.status with
              | some st => st
              | none => calculated,
          phases := phases,
          completedCount := completedCount,
          totalCount := totalCount,
          percentage :=
            if 0 < totalCount then jsRoundPct completedCount totalCount
            else 0,
          lastModified := mt,
          description := jsOrOpt (fm.bind (fun f => f.description))
            (extractDescription content),
          priority := jsOrOpt (fm.bind (fun f => f.priority))
            (jsOrOpt hm.priority none),
          tags := (fm.map (fun f => f.tags)).getD [],
          issue := jsOrOpt (fm.bind (fun f => f.issue)) hm.issue,
          branch := jsOrOpt (fm.bind (fun f => f.branch)) hm.branch,
          effort := fm.bind (fun f => f.effort),
          createdDate :=
            match fm.bind (fun f => f.createdDate) with
            | some d => some d
            | none =>
              match hm.createdDate with
              | some d => some d
              | none => dirDate,
          completedDate := fm.bind (fun f => f.completedDate) }

-- ## Concrete scenario inputs

/-- The dependency-table document of the exclusion scenario: a pipe
table headed `| Phase | Depends On | Can Run Parallel With |` (with
"None" dependency cells) followed by a numbered-list phase line. -/
def depTableDoc : Str :=
  str "# Plan\n\n| Phase | Depends On | Can Run Parallel With |\n|-------|-----------|----------------------|\n| 1 | None | 2 |\n| 2 | None | 1 |\n\n1. **Database Schema** (12h) - ✅ COMPLETE - 12 tables created\n"

/-- A file system with no readable files. -/
def fsEmpty : FS := ⟨fun _ => none, fun _ => none⟩

/-- The enrichment-override scenario: a phase marked pending in the
plan table, whose detail file carries an overview-table status row. -/
def phPending : PhaseData :=
  { phase := 1, name := str "Phase 1", status := .pending,
    file := str "/p/phase-01-x.md", linkText := str "Phase 1" }

def phaseOverviewDoc : Str :=
  str "# Phase 1\n\n| Field | Value |\n|-------|-------|\n| Implementation Status | ✅ Complete |\n"

def fsOverride : FS :=
  ⟨fun p => if p = str "/p/phase-01-x.md" then some phaseOverviewDoc
    else none, fun _ => none⟩

/-- Batch-parsing scenario: `/plans/b/plan.md` is readable,
`/plans/a/plan.md` is not. -/
def planBDoc : Str := str "1. **A** - DONE\n"

def fsBatch : FS :=
  ⟨fun p => if p = str "/plans/b/plan.md" then some planBDoc else none,
   fun _ => none⟩

/-- Plan-extraction scenario for the counting invariant. -/
def planWDoc : Str :=
  str "---\ntitle: My Plan\npriority: P1\n---\n# H\n\n## Overview\nThis does things. More text.\n\n1. **A** - DONE\n2. **B** - TODO\n"

def fsPlanW : FS :=
  ⟨fun p => if p = str "/plans/260102-demo-plan/plan.md" then some planWDoc
    else none,
   fun p => if p = str "/plans/260102-demo-plan/plan.md" then some 42
    else none⟩

section IncludesLemmas

/-- The `isPrefixOf` answers the prefix existential. -/
theorem isPrefixOf_iff_exists {pat s : Str} :
    pat.isPrefixOf s = true ↔ ∃ r, s = pat ++ r := by
  induction pat generalizing s with
  | nil => simp [List.isPrefixOf]
  | cons p pr ih =>
    cases s with
    | nil => simp [List.isPrefixOf]
    | cons c t =>
      simp only [List.isPrefixOf, Bool.and_eq_true, beq_iff_eq, ih,
        List.cons_append, List.cons.injEq]
      constructor
      · rintro ⟨rfl, r, rfl⟩; exact ⟨r, rfl, rfl⟩
      · rintro ⟨r, rfl, rfl⟩; exact ⟨rfl, r, rfl⟩

/-- The `jsIncludes` answers the substring existential. -/
theorem jsIncludes_iff_exists {s pat : Str} :
    jsIncludes s pat = true ↔ ∃ l r, s = l ++ pat ++ r := by
  induction s with
  | nil =>
    simp only [jsIncludes, List.isEmpty_iff]
    constructor
    · rintro rfl; exact ⟨[], [], rfl⟩
    · rintro ⟨l, r, h⟩
      rcases List.append_eq_nil.mp (List.append_eq_nil.mp h.symm).1 with ⟨_, h2⟩
      exact h2
  | cons c t ih =>
    simp only [jsIncludes, Bool.or_eq_true, isPrefixOf_iff_exists, ih]
    constructor
    · rintro (⟨r, h⟩ | ⟨l, r, h⟩)
      · exact ⟨[], r, by simpa using h⟩
      · exact ⟨c :: l, r, by simp [h]⟩
    · rintro ⟨l, r, h⟩
      cases l with
      | nil => exact Or.inl ⟨r, by simpa using h⟩
      | cons x xs =>
        right
        refine ⟨xs, r, ?_⟩
        simpa using congrArg (List.drop 1) h

/-- Dropping leading characters that cannot occur in `pat` does not
change whether `pat` occurs as a substring. -/
theorem jsIncludes_dropWhile {p : Char → Bool} {s pat : Str}
    (hne : pat ≠ []) (hp : ∀ c ∈ pat, p c = false) :
    jsIncludes (s.dropWhile p) pat = jsIncludes s pat := by
  induction s with
  | nil => simp
  | cons c t ih =>
    by_cases hc : p c = true
    · rw [List.dropWhile_cons_of_pos hc]
      rw [ih]
      show jsIncludes t pat = jsIncludes (c :: t) pat
      simp only [jsIncludes]
      have : pat.isPrefixOf (c :: t) = false := by
        cases pat with
        | nil => exact absurd rfl hne
        | cons q qt =>
          simp only [List.isPrefixOf, Bool.and_eq_false_iff, beq_eq_false_iff_ne]
          by_cases hq : q = c
          · subst hq
            exact absurd hc (by simpa using hp q (by simp))
          · exact Or.inl hq
      rw [this, Bool.false_or]
    · rw [List.dropWhile_cons_of_neg hc]

/-- Substring containment is preserved by reversing both strings. -/
theorem jsIncludes_reverse {s pat : Str} :
    jsIncludes s.reverse pat.reverse = jsIncludes s pat := by
  have h : ∀ (u v : Str), jsIncludes u.reverse v.reverse = true ↔
      jsIncludes u v = true := by
    intro u v
    simp only [jsIncludes_iff_exists]
    constructor
    · rintro ⟨l, r, h⟩
      refine ⟨r.reverse, l.reverse, ?_⟩
      have := congrArg List.reverse h
      simpa [List.append_assoc] using this
    · rintro ⟨l, r, rfl⟩
      exact ⟨r.reverse, l.reverse, by simp⟩
  by_cases hs : jsIncludes s pat = true
  · rw [hs, (h s pat).mpr hs]
  · have : jsIncludes s.reverse pat.reverse ≠ true := fun hc => hs ((h s pat).mp hc)
    simp only [Bool.not_eq_true] at this hs
    rw [this, hs]

/-- For a pattern containing no whitespace, `trim` does not change
substring containment. -/
theorem jsIncludes_jsTrim {s pat : Str}
    (hne : pat ≠ []) (hp : ∀ c ∈ pat, isWS c = false) :
    jsIncludes (jsTrim s) pat = jsIncludes s pat := by
  unfold jsTrim
  have hne' : pat.reverse ≠ [] := by simpa using hne
  have hp' : ∀ c ∈ pat.reverse, isWS c = false := by
    intro c hc; exact hp c (List.mem_reverse.mp hc)
  calc jsIncludes ((s.dropWhile isWS).reverse.dropWhile isWS).reverse pat
      = jsIncludes ((s.dropWhile isWS).reverse.dropWhile isWS).reverse
          pat.reverse.reverse := by rw [List.reverse_reverse]
    _ = jsIncludes ((s.dropWhile isWS).reverse.dropWhile isWS) pat.reverse :=
        jsIncludes_reverse
    _ = jsIncludes (s.dropWhile isWS).reverse pat.reverse :=
        jsIncludes_dropWhile hne' hp'
    _ = jsIncludes (s.dropWhile isWS) pat := jsIncludes_reverse
    _ = jsIncludes s pat := jsIncludes_dropWhile hne hp

end IncludesLemmas

/-- The completed-marker containment test of the normalizer, applied to
an arbitrary string. -/
def hitsCompleted (s : Str) : Bool :=
  jsIncludes s (str "complete") || jsIncludes s (str "done") ||
  jsIncludes s (str "✓") || jsIncludes s (str "✅")

/-- The in-progress-marker containment test of the normalizer. -/
def hitsProgress (s : Str) : Bool :=
  jsIncludes s (str "progress") || jsIncludes s (str "active") ||
  jsIncludes s (str "wip") || jsIncludes s (str "🔄")

/-- Trimming commutes out of the marker tests (no marker contains
whitespace), so the tests may be read on the lowercased text alone. -/
theorem hitsCompleted_trim (s : Str) :
    hitsCompleted (jsTrim s) = hitsCompleted s := by
  unfold hitsCompleted
  rw [jsIncludes_jsTrim (by decide) (by decide),
    jsIncludes_jsTrim (by decide) (by decide),
    jsIncludes_jsTrim (by decide) (by decide),
    jsIncludes_jsTrim (by decide) (by decide)]

theorem hitsProgress_trim (s : Str) :
    hitsProgress (jsTrim s) = hitsProgress s := by
  unfold hitsProgress
  rw [jsIncludes_jsTrim (by decide) (by decide),
    jsIncludes_jsTrim (by decide) (by decide),
    jsIncludes_jsTrim (by decide) (by decide),
    jsIncludes_jsTrim (by decide) (by decide)]

/-- C1.  For every input (null/undefined modelled as `none`, treated as
the empty string), `normalizeStatus` returns `completed` exactly when
the lowercased text contains one of "complete", "done", "✓", "✅";
`in-progress` exactly when it contains one of "progress", "active",
"wip", "🔄" but no completed marker; and `pending` otherwise.  The
function is total, so no error is ever raised. -/
theorem normalizeStatus_characterisation (raw : Option Str) :
    (normalizeStatus raw = .completed ↔
      hitsCompleted (jsToLower (raw.getD [])) = true) ∧
    (normalizeStatus raw = .inProgress ↔
      (hitsProgress (jsToLower (raw.getD [])) = true ∧
       hitsCompleted (jsToLower (raw.getD [])) = false)) ∧
    (normalizeStatus raw = .pending ↔
      (hitsCompleted (jsToLower (raw.getD [])) = false ∧
       hitsProgress (jsToLower (raw.getD [])) = false)) := by
  have hN : normalizeStatus raw =
      (if hitsCompleted (jsToLower (raw.getD [])) = true then
        PhaseStatus.completed
      else if hitsProgress (jsToLower (raw.getD [])) = true then
        PhaseStatus.inProgress
      else PhaseStatus.pending) := by
    show (if hitsCompleted (jsTrim (jsToLower (raw.getD []))) = true then
        PhaseStatus.completed
      else if hitsProgress (jsTrim (jsToLower (raw.getD []))) = true then
        PhaseStatus.inProgress
      else PhaseStatus.pending) = _
    rw [hitsCompleted_trim, hitsProgress_trim]
  rw [hN]
  rcases Bool.eq_false_or_eq_true (hitsCompleted (jsToLower (raw.getD []))) with
    h1 | h1 <;>
  rcases Bool.eq_false_or_eq_true (hitsProgress (jsToLower (raw.getD []))) with
    h2 | h2 <;>
  simp [h1, h2]

/-- C7.  `calculatePlanStatus` returns pending on the empty list,
completed when every phase of a non-empty list is completed,
in-progress when some phase is not completed but some phase is
completed or in-progress, and pending when every phase is pending. -/
theorem calculatePlanStatus_characterisation (phases : List PhaseStatus) :
    (phases = [] → calculatePlanStatus phases = .pending) ∧
    (phases ≠ [] → (∀ p ∈ phases, p = .completed) →
      calculatePlanStatus phases = .completed) ∧
    ((∃ p ∈ phases, p ≠ .completed) →
      (∃ p ∈ phases, p = .completed ∨ p = .inProgress) →
      calculatePlanStatus phases = .inProgress) ∧
    ((∀ p ∈ phases, p = .pending) → calculatePlanStatus phases = .pending) := by
  refine ⟨?_, ?_, ?_, ?_⟩
  · rintro rfl; rfl
  · intro hne hall
    unfold calculatePlanStatus
    rw [if_neg (by simpa [List.length_eq_zero] using hne)]
    have : phases.all (fun p => p = PhaseStatus.completed) = true := by
      simpa [List.all_eq_true] using hall
    simp [this]
  · rintro ⟨p, hp, hpne⟩ ⟨q, hq, hq2⟩
    unfold calculatePlanStatus
    rw [if_neg (by simp [List.length_eq_zero, List.ne_nil_of_mem hp])]
    have hall : phases.all (fun p => p = PhaseStatus.completed) = false := by
      simp only [List.all_eq_false]
      exact ⟨p, hp, by simpa using hpne⟩
    have hany : (phases.any (fun p => p = PhaseStatus.inProgress) ||
        phases.any (fun p => p = PhaseStatus.completed)) = true := by
      rcases hq2 with h | h
      · simp only [Bool.or_eq_true, List.any_eq_true]
        exact Or.inr ⟨q, hq, by simp [h]⟩
      · simp only [Bool.or_eq_true, List.any_eq_true]
        exact Or.inl ⟨q, hq, by simp [h]⟩
    simp [hall, hany]
  · intro hall
    unfold calculatePlanStatus
    by_cases hlen : phases.length = 0
    · simp [hlen]
    · rw [if_neg hlen]
      rcases List.exists_mem_of_length_pos (Nat.pos_of_ne_zero hlen) with ⟨p, hp⟩
      have h1 : phases.all (fun p => p = PhaseStatus.completed) = false := by
        simp only [List.all_eq_false]
        exact ⟨p, hp, by simp [hall p hp]⟩
      have h2 : phases.any (fun p => p = PhaseStatus.inProgress) = false := by
        simp only [List.any_eq_false]
        intro x hx
        simp [hall x hx]
      have h3 : phases.any (fun p => p = PhaseStatus.completed) = false := by
        simp only [List.any_eq_false]
        intro x hx
        simp [hall x hx]
      simp [h1, h2, h3]

/-- Witness for C7 at concrete phase lists. -/
theorem calculatePlanStatus_characterisation_witness :
    calculatePlanStatus [] = .pending ∧
    calculatePlanStatus [.completed, .completed] = .completed ∧
    calculatePlanStatus [.completed, .pending] = .inProgress ∧
    calculatePlanStatus [.pending, .pending] = .pending :=
  ⟨(calculatePlanStatus_characterisation []).1 rfl,
   (calculatePlanStatus_characterisation _).2.1 (by simp) (by decide),
   (calculatePlanStatus_characterisation _).2.2.1
     ⟨.pending, by simp, by decide⟩ ⟨.completed, by simp, by decide⟩,
   (calculatePlanStatus_characterisation _).2.2.2 (by decide)⟩

/-- C6 counterexample.  On input "P0" the function returns the token
"P0" itself, which is neither null nor one of P1/P2/P3 — the declared
codomain of the claim is violated. -/
theorem normalizePriority_P0_escapes_codomain :
    ¬ (normalizePriority (some (str "P0")) = none ∨
       normalizePriority (some (str "P0")) = some (str "P1") ∨
       normalizePriority (some (str "P0")) = some (str "P2") ∨
       normalizePriority (some (str "P0")) = some (str "P3")) := by
  decide

theorem pPattern_cases {p : Str} (h : pPattern p = true) :
    p = str "P0" ∨ p = str "P1" ∨ p = str "P2" ∨ p = str "P3" := by
  match p, h with
  | [a, c], h =>
    simp only [pPattern, Bool.and_eq_true, Bool.or_eq_true,
      decide_eq_true_eq] at h
    obtain ⟨rfl, ((rfl | rfl) | rfl) | rfl⟩ := h
    · exact Or.inl (by decide)
    · exact Or.inr (Or.inl (by decide))
    · exact Or.inr (Or.inr (Or.inl (by decide)))
    · exact Or.inr (Or.inr (Or.inr (by decide)))

/-- C6 amended.  `normalizePriority` maps P1/HIGH/CRITICAL to P1,
P2/MEDIUM/NORMAL to P2, P3/LOW to P3 (after uppercase-trim), passes any
other token matching `P[0-3]` — i.e. exactly "P0" — through unchanged,
and yields null otherwise (including empty and absent input); its
codomain is therefore {P0, P1, P2, P3, null}, not {P1, P2, P3, null}.
The function is total, so it never throws. -/
theorem normalizePriority_characterisation (priority : Option Str) :
    (normalizePriority priority = none ∨
     normalizePriority priority = some (str "P0") ∨
     normalizePriority priority = some (str "P1") ∨
     normalizePriority priority = some (str "P2") ∨
     normalizePriority priority = some (str "P3")) ∧
    (normalizePriority none = none) ∧
    (normalizePriority (some []) = none) ∧
    (∀ s, priority = some s → s ≠ [] →
      ((jsTrim (jsToUpper s) = str "P1" ∨ jsTrim (jsToUpper s) = str "HIGH" ∨
        jsTrim (jsToUpper s) = str "CRITICAL") →
        normalizePriority priority = some (str "P1")) ∧
      ((jsTrim (jsToUpper s) = str "P2" ∨ jsTrim (jsToUpper s) = str "MEDIUM" ∨
        jsTrim (jsToUpper s) = str "NORMAL") →
        normalizePriority priority = some (str "P2")) ∧
      ((jsTrim (jsToUpper s) = str "P3" ∨ jsTrim (jsToUpper s) = str "LOW") →
        normalizePriority priority = some (str "P3")) ∧
      (jsTrim (jsToUpper s) = str "P0" →
        normalizePriority priority = some (str "P0")) ∧
      ((jsTrim (jsToUpper s) ≠ str "P1" ∧ jsTrim (jsToUpper s) ≠ str "HIGH" ∧
        jsTrim (jsToUpper s) ≠ str "CRITICAL" ∧
        jsTrim (jsToUpper s) ≠ str "P2" ∧ jsTrim (jsToUpper s) ≠ str "MEDIUM" ∧
        jsTrim (jsToUpper s) ≠ str "NORMAL" ∧
        jsTrim (jsToUpper s) ≠ str "P3" ∧ jsTrim (jsToUpper s) ≠ str "LOW" ∧
        pPattern (jsTrim (jsToUpper s)) = false) →
        normalizePriority priority = none)) := by
  refine ⟨?_, rfl, rfl, ?_⟩
  · unfold normalizePriority
    match priority with
    | none => exact Or.inl rfl
    | some s =>
      by_cases he : s.isEmpty
      · simp [he]
      · simp only [he, Bool.false_eq_true, if_false]
        set p := jsTrim (jsToUpper s) with hp
        by_cases h1 : p = str "P1" ∨ p = str "HIGH" ∨ p = str "CRITICAL"
        · simp [h1]
        · rw [if_neg h1]
          by_cases h2 : p = str "P2" ∨ p = str "MEDIUM" ∨ p = str "NORMAL"
          · simp [h2]
          · rw [if_neg h2]
            by_cases h3 : p = str "P3" ∨ p = str "LOW"
            · simp [h3]
            · rw [if_neg h3]
              by_cases h4 : pPattern p = true
              · rw [if_pos h4]
                rcases pPattern_cases h4 with h | h | h | h <;> rw [h] <;> tauto
              · rw [if_neg h4]
                exact Or.inl rfl
  · intro s hs hne
    subst hs
    have hne' : s.isEmpty = false := by
      cases s with
      | nil => exact absurd rfl hne
      | cons c t => rfl
    refine ⟨?_, ?_, ?_, ?_, ?_⟩ <;> intro h <;>
      simp only [normalizePriority, hne', Bool.false_eq_true, if_false]
    · rw [if_pos h]
    · rw [if_neg (by rcases h with h | h | h <;> rw [h] <;> decide), if_pos h]
    · rw [if_neg (by rcases h with h | h <;> rw [h] <;> decide),
        if_neg (by rcases h with h | h <;> rw [h] <;> decide), if_pos h]
    · rw [if_neg (by rw [h]; decide), if_neg (by rw [h]; decide),
        if_neg (by rw [h]; decide), if_pos (by rw [h]; decide), h]
    · obtain ⟨a1, a2, a3, a4, a5, a6, a7, a8, a9⟩ := h
      rw [if_neg (by tauto), if_neg (by tauto), if_neg (by tauto),
        if_neg (by simp [a9])]

/-- Witness for C6 at concrete inputs. -/
theorem normalizePriority_characterisation_witness :
    normalizePriority (some (str " p0 ")) = some (str "P0") ∧
    normalizePriority (some (str "high")) = some (str "P1") ∧
    normalizePriority (some (str "bogus")) = none :=
  ⟨(((normalizePriority_characterisation (some (str " p0 "))).2.2.2
      _ rfl (by decide)).2.2.2.1 (by decide)),
   (((normalizePriority_characterisation (some (str "high"))).2.2.2
      _ rfl (by decide)).1 (by decide)),
   (((normalizePriority_characterisation (some (str "bogus"))).2.2.2
      _ rfl (by decide)).2.2.2.2 (by decide))⟩

set_option maxRecDepth 100000

theorem isEmpty_eq_false_of_ne {α : Type} {l : List α} (h : ¬ l = []) :
    l.isEmpty = false := by
  cases l with
  | nil => exact absurd rfl h
  | cons a t => rfl

/-- C3.  The parser cascade evaluates the five strategies in the fixed
order multi-column table, link-first table, numbered list,
heading-based, checkbox list, and returns the (enriched) result of the
first strategy producing a non-empty phase list; when every strategy
yields zero phases the result is the empty list (enrichment of an
empty list is the empty list). -/
theorem parse_strategy_order (content dir own : Str) (fs : FS) :
    parsePlanTableContent content dir own fs =
      enrichPhasesWithFileMetadata fs
        ((([parseMultiColumnTable content dir own,
            parseLinkFirstTable content dir,
            parseNumberedListWithStatus content own,
            parseHeadingBased content own,
            parseCheckboxList content dir own].find?
            (fun l => !l.isEmpty)).getD [])) := by
  unfold parsePlanTableContent
  by_cases h1 : (parseMultiColumnTable content dir own).isEmpty <;>
  by_cases h2 : (parseLinkFirstTable content dir).isEmpty <;>
  by_cases h3 : (parseNumberedListWithStatus content own).isEmpty <;>
  by_cases h4 : (parseHeadingBased content own).isEmpty <;>
  by_cases h5 : (parseCheckboxList content dir own).isEmpty <;>
  simp_all [List.find?, List.isEmpty_iff, isEmpty_eq_false_of_ne,
    enrichPhasesWithFileMetadata]

/-- C2.  On the dependency-table document, parsing yields exactly one
phase, named "Database Schema", with status completed; in particular
the dependency table produces no phase at all (no phase named "None"). -/
theorem depTable_scenario :
    parsePlanTableContent depTableDoc (str "/plans/demo")
        (str "/plans/demo/plan.md") fsEmpty =
      [{ phase := 1, name := str "Database Schema", status := .completed,
         file := str "/plans/demo/plan.md",
         linkText := str "Database Schema" }] ∧
    ∀ ph ∈ parsePlanTableContent depTableDoc (str "/plans/demo")
        (str "/plans/demo/plan.md") fsEmpty, ph.name ≠ str "None" := by
  refine ⟨by decide, ?_⟩
  intro ph hph
  have h : parsePlanTableContent depTableDoc (str "/plans/demo")
      (str "/plans/demo/plan.md") fsEmpty =
      [{ phase := 1, name := str "Database Schema", status := .completed,
         file := str "/plans/demo/plan.md",
         linkText := str "Database Schema" }] := by decide
  rw [h] at hph
  simp only [List.mem_singleton] at hph
  subst hph
  decide

/-- C5.  Enrichment preserves the length and order of the phase list;
a phase whose file path lacks "phase-" (or is empty), or whose file
yields no metadata, passes through unchanged; a successful extraction
replaces the status unconditionally, replaces the effort only when the
extracted effort is present and non-empty, and leaves the number,
name, file and link text unchanged. -/
theorem enrich_frame (fs : FS) (phases : List PhaseData) :
    (enrichPhasesWithFileMetadata fs phases).length = phases.length ∧
    (∀ i, (hi : i < phases.length) →
      ∃ p q, phases[i]? = some p ∧
        (enrichPhasesWithFileMetadata fs phases)[i]? = some q ∧
        ((p.file = [] ∨ jsIncludes p.file (str "phase-") = false) →
          q = p) ∧
        (jsIncludes p.file (str "phase-") = true → p.file ≠ [] →
          (extractPhaseMetadata fs p.file = none → q = p) ∧
          (∀ m, extractPhaseMetadata fs p.file = some m →
            q.status = m.status ∧ q.effort = strOr m.effort p.effort ∧
            q.phase = p.phase ∧ q.name = p.name ∧ q.file = p.file ∧
            q.linkText = p.linkText))) := by
  constructor
  · simp [enrichPhasesWithFileMetadata]
  · intro i hi
    have hlen : i < (enrichPhasesWithFileMetadata fs phases).length := by
      simpa [enrichPhasesWithFileMetadata] using hi
    refine ⟨phases[i], (enrichPhasesWithFileMetadata fs phases)[i],
      List.getElem?_eq_getElem hi, List.getElem?_eq_getElem hlen, ?_, ?_⟩
    · intro hcond
      show (enrichPhasesWithFileMetadata fs phases)[i] = phases[i]
      have : (enrichPhasesWithFileMetadata fs phases)[i] =
          enrichOne fs phases[i] := by
        simp [enrichPhasesWithFileMetadata]
      rw [this, enrichOne, if_pos hcond]
    · intro htrue hne
      have hq : (enrichPhasesWithFileMetadata fs phases)[i] =
          enrichOne fs phases[i] := by
        simp [enrichPhasesWithFileMetadata]
      rw [hq, enrichOne,
        if_neg (by rintro (h | h); exact hne h; rw [htrue] at h; cases h)]
      constructor
      · intro hnone; rw [hnone]
      · intro m hm; rw [hm]
        exact ⟨rfl, rfl, rfl, rfl, rfl, rfl⟩

/-- Witness for C5: the enrichment-override scenario — a phase marked
pending in the plan table whose detail file carries the overview row
`| Implementation Status | ✅ Complete |` ends up completed. -/
theorem enrich_frame_witness :
    ∃ q, (enrichPhasesWithFileMetadata fsOverride [phPending])[0]? = some q ∧
      q.status = .completed ∧ q.name = phPending.name ∧
      q.phase = phPending.phase := by
  obtain ⟨_, h⟩ := enrich_frame fsOverride [phPending]
  obtain ⟨p, q, hp, hq, _, hmain⟩ := h 0 (by decide)
  have hpe : phPending = p := by simpa using hp
  subst hpe
  have hmeta : extractPhaseMetadata fsOverride phPending.file =
      some { status := .completed } := by decide
  obtain ⟨hst, _, hph, hnm, _, _⟩ := (hmain (by decide) (by decide)).2 _ hmeta
  exact ⟨q, hq, hst, hnm, hph⟩

theorem mem_mapSet_self (m : List (Str × List PhaseData)) (k : Str)
    (v : List PhaseData) : (k, v) ∈ mapSet m k v := by
  unfold mapSet
  by_cases h : m.any (fun e => e.1 == k)
  · rw [if_pos h]
    simp only [List.any_eq_true] at h
    obtain ⟨e, he, hek⟩ := h
    exact List.mem_map.mpr ⟨e, he, by simp [hek]⟩
  · rw [if_neg h]
    simp

theorem mem_mapSet_of_ne (m : List (Str × List PhaseData)) (k k2 : Str)
    (v v2 : List PhaseData) (h : (k2, v2) ∈ m) (hne : k2 ≠ k) :
    (k2, v2) ∈ mapSet m k v := by
  unfold mapSet
  by_cases ha : m.any (fun e => e.1 == k)
  · rw [if_pos ha]
    exact List.mem_map.mpr ⟨(k2, v2), h, by simp [hne]⟩
  · rw [if_neg ha]
    exact List.mem_append_left _ h

theorem parsePlans_mem_aux (fs : FS) (files : List Str)
    (m : List (Str × List PhaseData)) (file : Str)
    (h : (file, (parsePlanTable fs file).getD []) ∈ m ∨ file ∈ files) :
    (file, (parsePlanTable fs file).getD []) ∈
      files.foldl
        (fun m f => mapSet m f ((parsePlanTable fs f).getD [])) m := by
  induction files generalizing m with
  | nil =>
    rcases h with h | h
    · exact h
    · cases h
  | cons g rest ih =>
    rw [List.foldl_cons]
    rcases h with h | h
    · by_cases hg : file = g
      · subst hg
        exact ih _ (Or.inl (mem_mapSet_self _ _ _))
      · exact ih _ (Or.inl (mem_mapSet_of_ne _ _ _ _ _ h hg))
    · rcases List.mem_cons.mp h with rfl | hrest
      · exact ih _ (Or.inl (mem_mapSet_self _ _ _))
      · exact ih _ (Or.inr hrest)

/-- C9.  A single plan parse fails exactly when reading the primary
plan document fails — for every file system, so a missing or
unreadable secondary phase file (or unparseable frontmatter) never
propagates — and the batch `parsePlans` is a total function in which
every input file is processed: each file contributes its parse result,
a failed file contributing the empty phase list. -/
theorem parse_failure_containment (fs : FS) :
    (∀ path, parsePlanTable fs path = none ↔ fs.read path = none) ∧
    (∀ files file, file ∈ files →
      (file, (parsePlanTable fs file).getD []) ∈ parsePlans fs files) := by
  constructor
  · intro path
    unfold parsePlanTable
    cases h : fs.read path <;> simp [h]
  · intro files file hf
    exact parsePlans_mem_aux fs files [] file (Or.inr hf)

/-- Witness for C9: one unreadable file contributes an empty phase
list while its readable sibling is still parsed. -/
theorem parse_failure_containment_witness :
    parsePlanTable fsBatch (str "/plans/a/plan.md") = none ∧
    (str "/plans/a/plan.md", ([] : List PhaseData)) ∈
      parsePlans fsBatch [str "/plans/a/plan.md", str "/plans/b/plan.md"] ∧
    (str "/plans/b/plan.md",
        (parsePlanTable fsBatch (str "/plans/b/plan.md")).getD []) ∈
      parsePlans fsBatch [str "/plans/a/plan.md", str "/plans/b/plan.md"] := by
  have h1 : parsePlanTable fsBatch (str "/plans/a/plan.md") = none :=
    ((parse_failure_containment fsBatch).1 _).mpr (by decide)
  refine ⟨h1, ?_, ?_⟩
  · have := (parse_failure_containment fsBatch).2
      [str "/plans/a/plan.md", str "/plans/b/plan.md"]
      (str "/plans/a/plan.md") (by simp)
    simpa [h1] using this
  · exact (parse_failure_containment fsBatch).2 _ _ (by simp)

theorem splitCh_of_not_mem {sep : Char} {l : Str} (h : sep ∉ l) :
    splitCh sep l = [l] := by
  induction l with
  | nil => rfl
  | cons c t ih =>
    have hc : ¬ c = sep := fun e => h (by simp [e])
    have ht : sep ∉ t := fun e => h (List.mem_cons_of_mem _ e)
    simp only [splitCh, if_neg hc, ih ht]

theorem splitCh_append_sep {sep : Char} {l rest : Str} (h : sep ∉ l) :
    splitCh sep (l ++ sep :: rest) = l :: splitCh sep rest := by
  induction l with
  | nil => simp [splitCh]
  | cons c t ih =>
    have hc : ¬ c = sep := fun e => h (by simp [e])
    have ht : sep ∉ t := fun e => h (List.mem_cons_of_mem _ e)
    show splitCh sep (c :: (t ++ sep :: rest)) = _
    simp only [splitCh, if_neg hc, ih ht]

theorem splitLines_joinCh {ls : List Str} (hne : ls ≠ [])
    (h : ∀ l ∈ ls, ('\n' : Char) ∉ l) :
    splitLines (joinCh '\n' ls) = ls := by
  induction ls with
  | nil => exact absurd rfl hne
  | cons l rest ih =>
    cases rest with
    | nil => exact splitCh_of_not_mem (h l (by simp))
    | cons r t =>
      show splitCh '\n' (l ++ '\n' :: joinCh '\n' (r :: t)) = _
      rw [splitCh_append_sep (h l (by simp))]
      rw [show splitCh '\n' (joinCh '\n' (r :: t)) =
        splitLines (joinCh '\n' (r :: t)) from rfl]
      rw [ih (by simp) (fun x hx => h x (List.mem_cons_of_mem _ hx))]

theorem hb_fold_noHeading (own : Str) (mid : List Str) (p : PhaseData)
    (acc : List PhaseData) (hmid : ∀ l ∈ mid, headingExec l = none) :
    mid.foldl (hbStep own) (some p, acc) =
      (some { p with status :=
        match (mid.filterMap statusLineExec).getLast? with
        | some v => normalizeStatus (some v)
        | none => p.status }, acc) := by
  induction mid generalizing p with
  | nil => simp
  | cons l rest ih =>
    have hl : headingExec l = none := hmid l (by simp)
    have hrest : ∀ x ∈ rest, headingExec x = none :=
      fun x hx => hmid x (by simp [hx])
    rw [List.foldl_cons]
    cases hs : statusLineExec l with
    | none =>
      have hstep : hbStep own (some p, acc) l = (some p, acc) := by
        simp [hbStep, hl, hs]
      rw [hstep, ih _ hrest, List.filterMap_cons, hs]
    | some v =>
      have hstep : hbStep own (some p, acc) l =
          (some { p with status := normalizeStatus (some v) }, acc) := by
        simp [hbStep, hl, hs]
      rw [hstep, ih _ hrest, List.filterMap_cons, hs]
      cases hlast : (rest.filterMap statusLineExec).getLast? with
      | none =>
        have he : rest.filterMap statusLineExec = [] :=
          List.getLast?_eq_none_iff.mp hlast
        rw [he]
        simp
      | some v2 =>
        have hne : rest.filterMap statusLineExec ≠ [] := by
          intro h0
          rw [h0] at hlast
          cases hlast
        obtain ⟨x, xs, hxs⟩ := List.exists_cons_of_ne_nil hne
        rw [hxs, List.getLast?_cons_cons]
        rw [hxs] at hlast
        rw [hlast]

theorem hb_fold_pre (own : Str) (pre : List Str)
    (hpre : ∀ l ∈ pre, headingExec l = none) :
    pre.foldl (hbStep own) (none, []) = (none, []) := by
  induction pre with
  | nil => rfl
  | cons l rest ih =>
    have hl : headingExec l = none := hpre l (by simp)
    have hstep : hbStep own (none, ([] : List PhaseData)) l = (none, []) := by
      simp [hbStep, hl]
    rw [List.foldl_cons, hstep,
      ih (fun x hx => hpre x (List.mem_cons_of_mem _ hx))]

/-- C10.  In the heading-based strategy, a document consisting of
lines without heading matches, then a `### Phase N: Name` heading,
then lines without further heading matches, produces exactly one
phase whose status is the normalisation of the LAST `- Status:` match
in the heading's segment (each later match overwrites the earlier
assignment — in particular with two or more status lines the last
wins), and `- Status:` lines before the first heading are ignored
entirely (the result does not depend on them). -/
theorem headingBased_last_status_wins (own : Str) (pre mid : List Str)
    (h d nm : Str)
    (hpre : ∀ l ∈ pre, headingExec l = none)
    (hnl : ∀ l ∈ pre ++ h :: mid, ('\n' : Char) ∉ l)
    (hh : headingExec h = some (d, nm))
    (hmid : ∀ l ∈ mid, headingExec l = none) :
    parseHeadingBased (joinCh '\n' (pre ++ h :: mid)) own =
      [{ phase := parseDigits d, name := jsTrim nm,
         status :=
           match ((h :: mid).filterMap statusLineExec).getLast? with
           | some v => normalizeStatus (some v)
           | none => .pending,
         file := own,
         linkText := str "Phase " ++ natToStr (parseDigits d) }] := by
  unfold parseHeadingBased
  rw [splitLines_joinCh (by simp) hnl]
  rw [List.foldl_append, hb_fold_pre own pre hpre, List.foldl_cons]
  rw [List.filterMap_cons]
  cases hs : statusLineExec h with
  | none =>
    have hstep : hbStep own (none, []) h =
        (some { phase := parseDigits d, name := jsTrim nm,
                status := .pending, file := own,
                linkText := str "Phase " ++ natToStr (parseDigits d) },
         []) := by
      simp [hbStep, hh, hs]
    rw [hstep, hb_fold_noHeading own mid _ _ hmid]
    simp
  | some v =>
    have hstep : hbStep own (none, []) h =
        (some { phase := parseDigits d, name := jsTrim nm,
                status := normalizeStatus (some v), file := own,
                linkText := str "Phase " ++ natToStr (parseDigits d) },
         []) := by
      simp [hbStep, hh, hs]
    rw [hstep, hb_fold_noHeading own mid _ _ hmid]
    cases hlast : (mid.filterMap statusLineExec).getLast? with
    | none =>
      have he : mid.filterMap statusLineExec = [] :=
        List.getLast?_eq_none_iff.mp hlast
      rw [he]
      simp
    | some v2 =>
      have hne : mid.filterMap statusLineExec ≠ [] := by
        intro h0
        rw [h0] at hlast
        cases hlast
      obtain ⟨x, xs, hxs⟩ := List.exists_cons_of_ne_nil hne
      rw [hxs, List.getLast?_cons_cons]
      rw [hxs] at hlast
      rw [hlast]
      simp

/-- Witness for C10: a status line before the heading is ignored and
of the two status lines after the heading the last ("wip") wins. -/
theorem headingBased_last_status_wins_witness :
    parseHeadingBased
      (joinCh '\n' [str "- Status: done",
                    str "### Phase 1: Setup",
                    str "- Status: pending",
                    str "- Status: wip"])
      (str "/p/plan.md") =
    [{ phase := 1, name := str "Setup", status := .inProgress,
       file := str "/p/plan.md", linkText := str "Phase 1" }] := by
  have h := headingBased_last_status_wins (str "/p/plan.md")
    [str "- Status: done"]
    [str "- Status: pending", str "- Status: wip"]
    (str "### Phase 1: Setup") (str "1") (str "Setup")
    (by decide) (by decide) (by decide) (by decide)
  rw [show ([str "- Status: done"] ++ str "### Phase 1: Setup" ::
      [str "- Status: pending", str "- Status: wip"]) =
      [str "- Status: done", str "### Phase 1: Setup",
       str "- Status: pending", str "- Status: wip"] from rfl] at h
  rw [h]
  decide

/-- C8.  Every plan record produced by `extractPlanData` satisfies the
counting invariant: `completedCount` counts the completed phases of
its phase list, `totalCount` is the list's length, and `percentage` is
`Math.round(100 * completedCount / totalCount)` (as exact rational
rounding, see `jsRoundPct`), or 0 when the list is empty. -/
theorem extractPlanData_counts (fs : FS) (path : Str) (pd : PlanData)
    (h : extractPlanData fs path = some pd) :
    pd.completedCount =
      (pd.phases.filter (fun p => p.status = .completed)).length ∧
    pd.totalCount = pd.phases.length ∧
    pd.percentage =
      (if 0 < pd.totalCount then jsRoundPct pd.completedCount pd.totalCount
       else 0) := by
  revert h
  unfold extractPlanData
  cases hr : fs.read path with
  | none => intro h; cases h
  | some content =>
    cases hm : fs.mtime path with
    | none => intro h; cases h
    | some mt =>
      cases hp : parsePlanTable fs path with
      | none => intro h; cases h
      | some phases =>
        intro h
        have h2 := Option.some_injective _ h
        subst h2
        exact ⟨rfl, rfl, rfl⟩

/-- Witness for C8.  A concrete plan (one DONE phase, one TODO phase)
for which the extractor produces a record; its counts satisfy the
invariant with percentage 50. -/
theorem extractPlanData_counts_witness :
    ∃ pd, extractPlanData fsPlanW (str "/plans/260102-demo-plan/plan.md") =
        some pd ∧
      pd.completedCount =
        (pd.phases.filter (fun p => p.status = .completed)).length ∧
      pd.totalCount = pd.phases.length ∧
      pd.percentage =
        (if 0 < pd.totalCount then jsRoundPct pd.completedCount pd.totalCount
         else 0) ∧
      pd.completedCount = 1 ∧ pd.totalCount = 2 ∧ pd.percentage = 50 := by
  cases hpd : extractPlanData fsPlanW (str "/plans/260102-demo-plan/plan.md")
    with
  | none => exact absurd hpd (by decide)
  | some pd =>
    obtain ⟨h1, h2, h3⟩ :=
      extractPlanData_counts fsPlanW (str "/plans/260102-demo-plan/plan.md")
        pd hpd
    have e1 : (extractPlanData fsPlanW
        (str "/plans/260102-demo-plan/plan.md")).map
        (fun x => x.completedCount) = some 1 := by decide
    have e2 : (extractPlanData fsPlanW
        (str "/plans/260102-demo-plan/plan.md")).map
        (fun x => x.totalCount) = some 2 := by decide
    have e3 : (extractPlanData fsPlanW
        (str "/plans/260102-demo-plan/plan.md")).map
        (fun x => x.percentage) = some 50 := by decide
    rw [hpd] at e1 e2 e3
    exact ⟨pd, rfl, h1, h2, h3, Option.some_injective _ e1,
      Option.some_injective _ e2, Option.some_injective _ e3⟩

/-- C4 (code bug).  The `isNaN(date.getTime())` guard of
`parseDateFromDirName` does not reject out-of-range calendar
components: ECMAScript `new Date(y, m, d)` rolls them over instead of
producing an invalid date.  "260231" (Feb 31) yields 3 March 2026 and
"261301" (month 13) yields 1 January 2027, where the claim (and the
function's own comment) require `undefined`.  The valid-date examples
of the claim do hold, as the third and fourth conjuncts show. -/
theorem parseDateFromDirName_rollover_bug :
    parseDateFromDirName (str "260231-x") = some (2026, 2, 3) ∧
    parseDateFromDirName (str "261301-y") = some (2027, 0, 1) ∧
    parseDateFromDirName (str "260102-0609-claude-kit") = some (2026, 0, 2) ∧
    parseDateFromDirName (str "feature-name") = none := by
  refine ⟨by decide, by decide, by decide, by decide⟩

end PlanKit
